import Mathlib

/-!
Verification development for the podcast-summary repository.

Numeric audio code (`src/audio.rs`) works on `f32`/`f64` samples; we embed it
over `ℚ` (exact arithmetic), which is the idealized semantics the code
approximates.  Machine integers (`u32`, `usize`, `i64`) are embedded as
`ℕ`/`ℤ`.  The stateful decoder, the database status writes and the download
worker pool are embedded as explicit state-passing functions or transition
relations, translated clause by clause from the Rust source.  Definitions
come first, followed by the theorems about them.
-/

namespace PodcastSummary

/-! Definitions for `src/audio.rs`: channel mixing and resampling. -/

/-- Fuel-indexed worker for `chunksExact` (the semantics of Rust's
`slice::chunks_exact`): while at least `n` elements remain, emit the next `n`
elements as a chunk; a trailing remainder shorter than `n` is dropped. -/
def chunksExactAux {α : Type} (n : ℕ) : ℕ → List α → List (List α)
  | 0, _ => []
  | fuel + 1, xs =>
    if 0 < n ∧ n ≤ xs.length then xs.take n :: chunksExactAux n fuel (xs.drop n)
    else []

/-- Rust `samples.chunks_exact(n)`: full chunks of size `n`, remainder dropped. -/
def chunksExact {α : Type} (n : ℕ) (xs : List α) : List (List α) :=
  chunksExactAux n xs.length xs

/-- Embedding of `stereo_to_mono` from `src/audio.rs` lines 13–18: average
each `channels`-sized frame of the interleaved sample slice. -/
def stereo_to_mono (samples : List ℚ) (channels : ℕ) : List ℚ :=
  (chunksExact channels samples).map (fun frame => frame.sum / (channels : ℚ))

/-- Embedding of `resample` from `src/audio.rs` lines 21–46: the
linear-interpolation resampler.  `from_rate as f64 / to_rate as f64` becomes
exact division on `ℚ`; `src_pos as usize` (truncation of a non-negative
float) becomes `Int.floor` then `Int.toNat`. -/
def resample (samples : List ℚ) (from_rate to_rate : ℕ) : List ℚ :=
  if from_rate = to_rate ∨ samples = [] then samples
  else
    let out_len : ℕ :=
      (⌈(samples.length : ℚ) / ((from_rate : ℚ) / (to_rate : ℚ))⌉).toNat
    (List.range out_len).map (fun (i : ℕ) =>
      let src_pos : ℚ := (i : ℚ) * ((from_rate : ℚ) / (to_rate : ℚ))
      let idx : ℕ := (⌊src_pos⌋).toNat
      let frac : ℚ := src_pos - (idx : ℚ)
      if idx + 1 < samples.length then
        samples.getD idx 0 * (1 - frac) + samples.getD (idx + 1) 0 * frac
      else if idx < samples.length then samples.getD idx 0
      else 0)

/-- Constant `WHISPER_SAMPLE_RATE` from `src/audio.rs` line 11. -/
def WHISPER_SAMPLE_RATE : ℕ := 16000

/-! Definitions for `src/models.rs` and `src/db.rs`: episode status and the
persisted status writes. -/

/-- Embedding of `EpisodeStatus` from `src/models.rs` lines 31–38. -/
inductive EpisodeStatus where
  | new
  | downloaded
  | transcribed
  | summarized
  | failed (reason : String)
  deriving DecidableEq, Repr

/-- The episode columns the pipeline reads and writes (`src/models.rs`
`Episode`, restricted to status and artifact paths). -/
structure EpisodeRec where
  status : EpisodeStatus
  audioPath : Option String
  transcriptPath : Option String
  deriving DecidableEq, Repr

/-- Embedding of `Database::update_episode_audio_path` (`src/db.rs` 262–268):
stores the path and unconditionally sets `status = 'downloaded'`. -/
def update_episode_audio_path (ep : EpisodeRec) (path : String) : EpisodeRec :=
  { ep with audioPath := some path, status := .downloaded }

/-- Embedding of `Database::update_episode_transcript_path` (`src/db.rs`
270–276): stores the path and unconditionally sets `status = 'transcribed'`. -/
def update_episode_transcript_path (ep : EpisodeRec) (path : String) :
    EpisodeRec :=
  { ep with transcriptPath := some path, status := .transcribed }

/-- Status effect of `Database::insert_summary` (`src/db.rs` 300–318): after
inserting the row, `status = 'summarized'`. -/
def insert_summary_status (ep : EpisodeRec) : EpisodeRec :=
  { ep with status := .summarized }

/-- Embedding of `Database::update_episode_status` (`src/db.rs` 254–260). -/
def update_episode_status (ep : EpisodeRec) (st : EpisodeStatus) : EpisodeRec :=
  { ep with status := st }

/-- The transition discipline asserted by the spec: one forward step along
`new → downloaded → transcribed → summarized`, or a non-terminal state moving
to `failed`. -/
def claimTransitionOk : EpisodeStatus → EpisodeStatus → Bool
  | .new, .downloaded => true
  | .downloaded, .transcribed => true
  | .transcribed, .summarized => true
  | .new, .failed _ => true
  | .downloaded, .failed _ => true
  | .transcribed, .failed _ => true
  | _, _ => false

/-! Definitions for `src/commands/sync.rs`: single-episode phases, batch
status traces, and the batch phase loops over the episode table (modelled as
a status per episode id). -/

/-- Download step of `run_single_episode` (`src/commands/sync.rs` 143–173):
skip when the recorded audio file exists, otherwise download and persist.
The Boolean records whether a network download was performed. -/
def singleDownloadPhase (ep : EpisodeRec) (fileExists : String → Bool)
    (newPath : String) : EpisodeRec × Bool :=
  match ep.audioPath with
  | some existing =>
    if fileExists existing then (ep, false)
    else (update_episode_audio_path ep newPath, true)
  | none => (update_episode_audio_path ep newPath, true)

/-- Transcribe step of `run_single_episode` (`src/commands/sync.rs` 181–278):
skip recognition when the recorded transcript file exists, otherwise
transcribe and persist.  The Boolean records whether recognition ran. -/
def singleTranscribePhase (ep : EpisodeRec) (fileExists : String → Bool)
    (newPath : String) : EpisodeRec × Bool :=
  match ep.transcriptPath with
  | some existing =>
    if fileExists existing then (ep, false)
    else (update_episode_transcript_path ep newPath, true)
  | none => (update_episode_transcript_path ep newPath, true)

/-- Outcome of one phase attempt for one episode. -/
inductive PhaseResult where
  | ok (artifact : String)
  | err (msg : String)
  deriving DecidableEq, Repr

/-- The statuses persisted for one episode by a batch `sync` run
(`download_episodes`, `transcribe_episodes`, `summarize_episodes` in
`src/commands/sync.rs`), starting from discovery status `new`.  A failing
phase records `failed ("<phase>: <cause>")` and excludes the episode from
later phases; Summarize is skipped for the whole batch when no API key
resolves. -/
def batchStatusTrace (dl tr : PhaseResult) (apiKey : Option String)
    (sm : PhaseResult) : List EpisodeStatus :=
  .new ::
    match dl with
    | .err m => [.failed ("download: " ++ m)]
    | .ok _ =>
      .downloaded ::
        match tr with
        | .err m => [.failed ("transcribe: " ++ m)]
        | .ok _ =>
          .transcribed ::
            match apiKey with
            | none => []
            | some _ =>
              match sm with
              | .err m => [.failed ("summarize: " ++ m)]
              | .ok _ => [.summarized]

/-- Point update of the episode table, keyed by id. -/
def setStatus (db : ℤ → EpisodeStatus) (i : ℤ) (st : EpisodeStatus) :
    ℤ → EpisodeStatus :=
  fun j => if j = i then st else db j

/-- Embedding of `download_episodes` (`src/commands/sync.rs` 327–374): one
task per episode, results joined in spawn order; a success persists the
audio path (status `downloaded`) and enters the `downloaded` list, a failure
persists `failed ("download: <cause>")` and the loop carries on. -/
def download_episodes (eps : List ℤ) (dl : ℤ → Except String String)
    (db : ℤ → EpisodeStatus) : (ℤ → EpisodeStatus) × List (ℤ × String) :=
  match eps with
  | [] => (db, [])
  | e :: rest =>
    match dl e with
    | .ok path =>
      let step := download_episodes rest dl (setStatus db e .downloaded)
      (step.1, (e, path) :: step.2)
    | .error msg =>
      download_episodes rest dl (setStatus db e (.failed ("download: " ++ msg)))

/-- Embedding of `transcribe_episodes` (`src/commands/sync.rs` 376–451):
sequential over the downloaded list; success persists the transcript path
(status `transcribed`), failure persists `failed ("transcribe: <cause>")`. -/
def transcribe_episodes (downloaded : List (ℤ × String))
    (tr : ℤ → Except String String) (db : ℤ → EpisodeStatus) :
    (ℤ → EpisodeStatus) × List (ℤ × String) :=
  match downloaded with
  | [] => (db, [])
  | (e, _) :: rest =>
    match tr e with
    | .ok t =>
      let step := transcribe_episodes rest tr (setStatus db e .transcribed)
      (step.1, (e, t) :: step.2)
    | .error msg =>
      transcribe_episodes rest tr (setStatus db e (.failed ("transcribe: " ++ msg)))

/-- Per-episode loop of `summarize_episodes` (`src/commands/sync.rs`
474–512). -/
def summarizeLoop (transcribed : List (ℤ × String))
    (sm : ℤ → Except String Unit) (db : ℤ → EpisodeStatus) :
    ℤ → EpisodeStatus :=
  match transcribed with
  | [] => db
  | (e, _) :: rest =>
    match sm e with
    | .ok _ => summarizeLoop rest sm (setStatus db e .summarized)
    | .error msg =>
      summarizeLoop rest sm (setStatus db e (.failed ("summarize: " ++ msg)))

/-- Embedding of `summarize_episodes` (`src/commands/sync.rs` 453–514): the
whole phase is skipped when no API key resolves. -/
def summarize_episodes (transcribed : List (ℤ × String))
    (apiKey : Option String) (sm : ℤ → Except String Unit)
    (db : ℤ → EpisodeStatus) : ℤ → EpisodeStatus :=
  match apiKey with
  | none => db
  | some _ => summarizeLoop transcribed sm db

/-- Phases 2–4 of the batch `run` (`src/commands/sync.rs` 77–105). -/
def runBatch (eps : List ℤ) (dl tr : ℤ → Except String String)
    (sm : ℤ → Except String Unit) (apiKey : Option String)
    (downloadOnly : Bool) (db : ℤ → EpisodeStatus) : ℤ → EpisodeStatus :=
  let step1 := download_episodes eps dl db
  if downloadOnly || step1.2.isEmpty then step1.1
  else
    let step2 := transcribe_episodes step1.2 tr step1.1
    if step2.2.isEmpty then step2.1
    else summarize_episodes step2.2 apiKey sm step2.1

/-! Definitions for download concurrency (`src/commands/sync.rs` 334–355):
the spawn loop acquires one permit from
`Semaphore::new(max_concurrent_downloads)` before spawning each task; the
task drops its permit right after its download returns, success or
failure. -/

/-- Instantaneous state of the download phase: episodes not yet spawned,
semaphore permits currently available, downloads in flight (each holding one
permit), downloads completed (permit returned). -/
structure DownloadPoolState where
  queued : ℕ
  available : ℕ
  inFlight : ℕ
  completed : ℕ
  deriving DecidableEq, Repr

/-- Interleaved steps of the download phase: the loop acquires a permit and
spawns a task (`acquire_owned().await` then `tokio::spawn`), or an in-flight
task finishes and releases its permit (`drop(permit)`). -/
inductive DownloadPoolStep : DownloadPoolState → DownloadPoolState → Prop where
  | spawn (s : DownloadPoolState) (hq : 0 < s.queued) (ha : 0 < s.available) :
      DownloadPoolStep s
        ⟨s.queued - 1, s.available - 1, s.inFlight + 1, s.completed⟩
  | finish (s : DownloadPoolState) (hf : 0 < s.inFlight) :
      DownloadPoolStep s
        ⟨s.queued, s.available + 1, s.inFlight - 1, s.completed + 1⟩

/-- States reachable from the phase start: `n` episodes queued, a fresh
semaphore holding `k` permits, nothing in flight. -/
def DownloadPoolReachable (k n : ℕ) (s : DownloadPoolState) : Prop :=
  Relation.ReflTransGen DownloadPoolStep ⟨n, k, 0, 0⟩ s

/-! Definitions for `ChunkedAudioDecoder` (`src/audio.rs` 50–179). -/

/-- Outcome of `Decoder::decode` on one packet, as the `next_chunk` loop
distinguishes them (`src/audio.rs` 148–155). -/
inductive DecodeOutcome where
  | ok (samples : List ℚ)
  | decodeError
  | fatal
  deriving DecidableEq, Repr

/-- One `FormatReader::next_packet` event, as `next_chunk` distinguishes
them (`src/audio.rs` 135–146): a reset request, a read error (including end
of stream), or a packet on a track together with its decode outcome. -/
inductive PacketEvent where
  | resetRequired
  | readError
  | packet (trackId : ℕ) (outcome : DecodeOutcome)
  deriving DecidableEq, Repr

/-- State of `ChunkedAudioDecoder` (`src/audio.rs` 50–59): the remaining
packet stream plus the probed parameters and the `finished` flag. -/
structure ChunkedAudioDecoder where
  events : List PacketEvent
  track_id : ℕ
  source_rate : ℕ
  channels : ℕ
  finished : Bool
  deriving DecidableEq, Repr

/-- The packet-accumulation loop of `next_chunk` (`src/audio.rs` 134–162):
returns the accumulated raw samples, the remaining stream, and whether the
loop set `finished`. -/
def collectLoop (tid maxSrc : ℕ) :
    List PacketEvent → List ℚ → List ℚ × List PacketEvent × Bool
  | [], acc =>
    if maxSrc ≤ acc.length then (acc, [], false) else (acc, [], true)
  | ev :: rest, acc =>
    if maxSrc ≤ acc.length then (acc, ev :: rest, false)
    else
      match ev with
      | .resetRequired => collectLoop tid maxSrc rest acc
      | .readError => (acc, rest, true)
      | .packet ptid outcome =>
        if ptid ≠ tid then collectLoop tid maxSrc rest acc
        else
          match outcome with
          | .decodeError => collectLoop tid maxSrc rest acc
          | .fatal => (acc, rest, true)
          | .ok samples => collectLoop tid maxSrc rest (acc ++ samples)

/-- Embedding of `next_chunk` (`src/audio.rs` 124–179): decode up to
`max_seconds * source_rate * channels` raw samples, then mix and resample;
returns no chunk when nothing was accumulated. -/
def next_chunk (d : ChunkedAudioDecoder) (max_seconds : ℕ) :
    Option (List ℚ) × ChunkedAudioDecoder :=
  if d.finished then (none, d)
  else
    let maxSrc := max_seconds * d.source_rate * d.channels
    let res := collectLoop d.track_id maxSrc d.events []
    let d' : ChunkedAudioDecoder := { d with events := res.2.1, finished := res.2.2 }
    if res.1.isEmpty then (none, d')
    else
      let mono := if 1 < d.channels then stereo_to_mono res.1 d.channels else res.1
      if d.source_rate ≠ WHISPER_SAMPLE_RATE then
        (some (resample mono d.source_rate WHISPER_SAMPLE_RATE), d')
      else (some mono, d')

/-- A sequence of `next_chunk` calls with the given `max_seconds` arguments,
collecting each returned chunk option. -/
def runCalls (d : ChunkedAudioDecoder) : List ℕ → List (Option (List ℚ))
  | [] => []
  | m :: ms =>
    let r := next_chunk d m
    r.1 :: runCalls r.2 ms

/-- Codec parameters of a probed track as `ChunkedAudioDecoder::open` reads
them (`src/audio.rs` 83–104): whether the codec is `CODEC_TYPE_NULL`, the
optional sample rate, and the optional channel layout's count. -/
structure CodecParams where
  isNull : Bool
  sample_rate : Option ℕ
  channelCount : Option ℕ
  deriving DecidableEq, Repr

/-- A probed track (`src/audio.rs` 83–91). -/
structure Track where
  id : ℕ
  codec_params : CodecParams
  deriving DecidableEq, Repr

/-- Embedding of `ChunkedAudioDecoder::open` (`src/audio.rs` 62–116),
abstracted over the probed track list and the packet stream: select the
first track whose codec is not `CODEC_TYPE_NULL`, default a missing sample
rate to 44100 and a missing channel layout to 1 channel. -/
def ChunkedAudioDecoder.openDecoder (tracks : List Track)
    (events : List PacketEvent) : Except String ChunkedAudioDecoder :=
  match tracks.find? (fun t => !t.codec_params.isNull) with
  | none => .error "No audio track found"
  | some t =>
    .ok { events := events
          track_id := t.id
          source_rate := t.codec_params.sample_rate.getD 44100
          channels := t.codec_params.channelCount.getD 1
          finished := false }

/-! Definitions for the progress cell (`src/commands/sync.rs` 196/400,
`src/transcribe.rs` 55–57). -/

/-- The shared progress cell is created as `AtomicI32::new(0)`. -/
def progressInit : ℤ := 0

/-- The poller renders `pct.max(0)` (`src/commands/sync.rs` 411–412). -/
def pollDisplay (pct : ℤ) : ℤ := max pct 0

/-- Progress values the recognition engine reports (0–100). -/
def validProgress (p : ℤ) : Prop := 0 ≤ p ∧ p ≤ 100

/-! Helper lemmas about `chunksExact`. -/

theorem chunksExactAux_length_le (n fuel : ℕ) (xs : List α) (hf : xs.length ≤ fuel)
    (hn : 0 < n) : (chunksExactAux n fuel xs).length = xs.length / n := by
  induction fuel generalizing xs with
  | zero =>
    have hx : xs = [] := List.length_eq_zero.mp (Nat.le_zero.mp hf)
    subst hx
    simp [chunksExactAux]
  | succ m ih =>
    by_cases h : n ≤ xs.length
    · have hdrop : (xs.drop n).length ≤ m := by
        simp only [List.length_drop]
        omega
      simp only [chunksExactAux, hn, h, and_self, if_true, List.length_cons,
        ih (xs.drop n) hdrop, List.length_drop]
      rw [Nat.div_eq_sub_div hn h]
    · simp only [chunksExactAux, hn, h, and_false, if_false, List.length_nil]
      have : xs.length / n = 0 := Nat.div_eq_of_lt (by omega)
      omega

/-- Length of `chunks_exact`: one chunk per full frame. -/
theorem chunksExact_length (n : ℕ) (xs : List α) (hn : 0 < n) :
    (chunksExact n xs).length = xs.length / n :=
  chunksExactAux_length_le n xs.length xs le_rfl hn

theorem chunksExactAux_getD (n fuel : ℕ) (xs : List α) (hf : xs.length ≤ fuel)
    (i : ℕ) (hi : i < (chunksExactAux n fuel xs).length) :
    (chunksExactAux n fuel xs).getD i [] = (xs.drop (i * n)).take n := by
  induction fuel generalizing xs i with
  | zero => simp [chunksExactAux] at hi
  | succ m ih =>
    by_cases h : 0 < n ∧ n ≤ xs.length
    · simp only [chunksExactAux, h, and_self, if_true] at hi ⊢
      cases i with
      | zero => simp
      | succ j =>
        have hdrop : (xs.drop n).length ≤ m := by
          simp only [List.length_drop]
          omega
        simp only [List.getD_cons_succ, List.length_cons] at hi ⊢
        rw [ih (xs.drop n) hdrop j (by omega), List.drop_drop]
        congr 1
        ring_nf
    · simp [chunksExactAux, h] at hi

theorem chunksExact_getD (n : ℕ) (xs : List α) (i : ℕ)
    (hi : i < (chunksExact n xs).length) :
    (chunksExact n xs).getD i [] = (xs.drop (i * n)).take n :=
  chunksExactAux_getD n xs.length xs le_rfl i hi

/-- Closed form of `chunks_exact`: the `i`-th chunk is the `i`-th frame. -/
theorem chunksExact_eq_range (n : ℕ) (hn : 0 < n) (xs : List α) :
    chunksExact n xs =
      (List.range (xs.length / n)).map (fun i => (xs.drop (i * n)).take n) := by
  apply List.ext_getElem
  · rw [chunksExact_length n xs hn, List.length_map, List.length_range]
  · intro i h1 h2
    have hgd := chunksExact_getD n xs i h1
    rw [List.getD_eq_getElem _ _ h1] at hgd
    rw [hgd]
    rw [List.getElem_map, List.getElem_range]

/-- Closed form of `stereo_to_mono`. -/
theorem stereo_to_mono_eq_range (xs : List ℚ) (C : ℕ) (hC : 0 < C) :
    stereo_to_mono xs C =
      (List.range (xs.length / C)).map
        (fun i => ((xs.drop (i * C)).take C).sum / (C : ℚ)) := by
  rw [stereo_to_mono, chunksExact_eq_range C hC xs, List.map_map]
  rfl

/-! Claims C3, C4 and C9 about the audio normalizer. -/

/-- C3: for a nonempty input of `N` samples and distinct positive rates
`R1 → R2`, `resample` emits exactly `⌈N * R2 / R1⌉` samples. -/
theorem c3_resample_length (samples : List ℚ) (R1 R2 : ℕ) (h1 : 0 < R1)
    (h2 : 0 < R2) (hne : samples ≠ []) (hr : R1 ≠ R2) :
    (resample samples R1 R2).length =
      (⌈((samples.length : ℚ) * (R2 : ℚ)) / (R1 : ℚ)⌉).toNat := by
  rw [resample, if_neg (by simp [hr, hne])]
  simp only [List.length_map, List.length_range]
  rw [div_div_eq_mul_div]

/-- C3 witness: 3 samples resampled from rate 2 to rate 1 give ⌈3·1/2⌉ = 2. -/
theorem c3_resample_length_witness : (resample [1, 2, 3] 2 1).length = 2 := by
  rw [c3_resample_length [1, 2, 3] 2 1 (by decide) (by decide) (by simp) (by decide)]
  have h2 : ⌈((([1, 2, 3] : List ℚ).length : ℚ) * ((1 : ℕ) : ℚ)) / ((2 : ℕ) : ℚ)⌉
      = 2 := by
    rw [Int.ceil_eq_iff] <;> norm_num
  rw [h2]
  rfl

/-- C4: each channel-mix output sample is the arithmetic mean of the `C`
channel values of the corresponding frame, and the concrete frames from the
spec evaluate as stated: `[a] ↦ a`, `[1, 0] ↦ 1/2`, `[1, 2, 3, 4] ↦ 5/2`. -/
theorem c4_channel_mix_mean (xs : List ℚ) (C : ℕ) (a : ℚ) (hC : 0 < C) :
    (∀ i, i < (stereo_to_mono xs C).length →
        (stereo_to_mono xs C).getD i 0 = ((xs.drop (i * C)).take C).sum / (C : ℚ))
      ∧ stereo_to_mono [a] 1 = [a]
      ∧ stereo_to_mono [1, 0] 2 = [1/2]
      ∧ stereo_to_mono [1, 2, 3, 4] 4 = [5/2] := by
  refine ⟨?_, ?_,
    by norm_num [stereo_to_mono, chunksExact, chunksExactAux],
    by norm_num [stereo_to_mono, chunksExact, chunksExactAux]⟩
  · intro i hi
    rw [stereo_to_mono_eq_range xs C hC] at hi ⊢
    rw [List.getD_eq_getElem _ _ hi, List.getElem_map]
    simp
  · simp [stereo_to_mono, chunksExact, chunksExactAux]

/-- C4 witness. -/
theorem c4_channel_mix_mean_witness :
    (∀ i, i < (stereo_to_mono [1, 2, 3, 4] 2).length →
        (stereo_to_mono [1, 2, 3, 4] 2).getD i 0 =
          ((([1, 2, 3, 4] : List ℚ).drop (i * 2)).take 2).sum / (2 : ℚ))
      ∧ stereo_to_mono [(7 : ℚ)] 1 = [(7 : ℚ)]
      ∧ stereo_to_mono [1, 0] 2 = [1/2]
      ∧ stereo_to_mono [1, 2, 3, 4] 4 = [5/2] :=
  c4_channel_mix_mean [1, 2, 3, 4] 2 7 (by decide)

/-- C9: appending a nonempty incomplete trailing frame (so the total length
is not a multiple of `C`) leaves the channel-mix output unchanged: exactly
`⌊length / C⌋` output samples, the leftovers contributing nothing. -/
theorem c9_incomplete_frame_dropped (xs rem : List ℚ) (C : ℕ) (hC : 0 < C)
    (hx : C ∣ xs.length) (hlt : rem.length < C) (hne : rem ≠ []) :
    ¬ C ∣ (xs ++ rem).length
      ∧ (stereo_to_mono (xs ++ rem) C).length = (xs ++ rem).length / C
      ∧ stereo_to_mono (xs ++ rem) C = stereo_to_mono xs C := by
  obtain ⟨k, hk⟩ := hx
  have hrpos : 0 < rem.length := List.length_pos.mpr hne
  have hlen : (xs ++ rem).length = C * k + rem.length := by
    simp [List.length_append, hk]
  have hdivlen : (xs ++ rem).length / C = xs.length / C := by
    rw [hlen, Nat.mul_add_div hC, hk, Nat.mul_div_cancel_left _ hC,
      Nat.div_eq_of_lt hlt, Nat.add_zero]
  refine ⟨?_, ?_, ?_⟩
  · intro hdvd
    have hmod : (xs ++ rem).length % C = rem.length := by
      rw [hlen, Nat.mul_add_mod, Nat.mod_eq_of_lt hlt]
    rw [Nat.dvd_iff_mod_eq_zero] at hdvd
    omega
  · rw [stereo_to_mono, List.length_map, chunksExact_length C _ hC]
  · rw [stereo_to_mono_eq_range _ C hC, stereo_to_mono_eq_range xs C hC, hdivlen]
    apply List.map_congr_left
    intro i hi
    rw [List.mem_range] at hi
    have hiC : i * C + C ≤ xs.length := by
      have : i + 1 ≤ xs.length / C := hi
      calc i * C + C = (i + 1) * C := by ring
        _ ≤ xs.length / C * C := Nat.mul_le_mul_right C this
        _ ≤ xs.length := Nat.div_mul_le_self _ _
    rw [List.drop_append_of_le_length (by omega),
      List.take_append_of_le_length (by simp [List.length_drop]; omega)]

/-- C9 witness: two full stereo frames plus one leftover sample. -/
theorem c9_incomplete_frame_dropped_witness :
    ¬ (2 ∣ (([1, 2, 3, 4] : List ℚ) ++ [9]).length)
      ∧ (stereo_to_mono (([1, 2, 3, 4] : List ℚ) ++ [9]) 2).length
          = (([1, 2, 3, 4] : List ℚ) ++ [9]).length / 2
      ∧ stereo_to_mono (([1, 2, 3, 4] : List ℚ) ++ [9]) 2
          = stereo_to_mono [1, 2, 3, 4] 2 :=
  c9_incomplete_frame_dropped [1, 2, 3, 4] [9] 2 (by decide) (by decide)
    (by decide) (by simp)

/-! Claims C1 and C7 about the single-episode pipeline and the persisted
status writes. -/

/-- C1 counterexample: running the single-episode pipeline on a `summarized`
episode whose recorded audio file is missing on disk (e.g. removed by
`auto_cleanup_audio`) re-downloads and persists status `downloaded` — the
pipeline moves the status backwards on a success path. -/
theorem c1_counterexample :
    (singleDownloadPhase ⟨.summarized, some "ep.mp3", some "ep.txt"⟩
        (fun _ => false) "ep2.mp3").1.status = .downloaded
      ∧ claimTransitionOk .summarized .downloaded = false := by
  exact ⟨rfl, rfl⟩

/-- C1 (amended): in the batch pipeline — which processes only newly
discovered episodes — every persisted transition is one forward step along
`new → downloaded → transcribed → summarized` or a non-terminal step to
`failed`; the single-episode Download step, however, always leaves the
status either unchanged (artifact present) or set to `downloaded`, which is
a backward move when the episode was already past `downloaded`. -/
theorem c1_batch_monotone (dl tr : PhaseResult) (apiKey : Option String)
    (sm : PhaseResult) :
    (batchStatusTrace dl tr apiKey sm).Chain'
        (fun a b => claimTransitionOk a b = true)
      ∧ ∀ ep fe p, (singleDownloadPhase ep fe p).1.status = ep.status
          ∨ (singleDownloadPhase ep fe p).1.status = .downloaded := by
  constructor
  · cases dl <;> cases tr <;> cases apiKey <;> cases sm <;>
      simp [batchStatusTrace, claimTransitionOk]
  · intro ep fe p
    match h : ep.audioPath with
    | some q =>
      by_cases hq : fe q = true
      · left
        simp [singleDownloadPhase, h, hq]
      · right
        simp [singleDownloadPhase, h, hq, update_episode_audio_path]
    | none =>
      right
      simp [singleDownloadPhase, h, update_episode_audio_path]

/-- C7: when the referenced artifact file exists on disk, re-running the
single-episode Download (resp. Transcribe) step performs no network
(recognition) call and leaves the episode record, including its persisted
status, unchanged. -/
theorem c7_idempotent_phases (ep : EpisodeRec) (fe : String → Bool)
    (np nt pa pt : String) :
    (ep.audioPath = some pa → fe pa = true →
        singleDownloadPhase ep fe np = (ep, false))
      ∧ (ep.transcriptPath = some pt → fe pt = true →
          singleTranscribePhase ep fe nt = (ep, false)) := by
  constructor
  · intro h hf
    simp [singleDownloadPhase, h, hf]
  · intro h hf
    simp [singleTranscribePhase, h, hf]

/-- C7 witness. -/
theorem c7_idempotent_phases_witness :
    singleDownloadPhase ⟨.downloaded, some "a.mp3", some "t.txt"⟩
        (fun _ => true) "n.mp3"
      = (⟨.downloaded, some "a.mp3", some "t.txt"⟩, false)
    ∧ singleTranscribePhase ⟨.downloaded, some "a.mp3", some "t.txt"⟩
        (fun _ => true) "n.txt"
      = (⟨.downloaded, some "a.mp3", some "t.txt"⟩, false) :=
  ⟨(c7_idempotent_phases ⟨.downloaded, some "a.mp3", some "t.txt"⟩
      (fun _ => true) "n.mp3" "n.txt" "a.mp3" "t.txt").1 rfl rfl,
   (c7_idempotent_phases ⟨.downloaded, some "a.mp3", some "t.txt"⟩
      (fun _ => true) "n.mp3" "n.txt" "a.mp3" "t.txt").2 rfl rfl⟩

/-! Helper lemmas for the batch pipeline, then claim C2. -/

theorem download_db_not_mem (eps : List ℤ) (dl : ℤ → Except String String)
    (db : ℤ → EpisodeStatus) (i : ℤ) (hi : i ∉ eps) :
    (download_episodes eps dl db).1 i = db i := by
  induction eps generalizing db with
  | nil => rfl
  | cons e rest ih =>
    have hne : i ≠ e := fun h => hi (h ▸ List.mem_cons_self e rest)
    have hir : i ∉ rest := fun h => hi (List.mem_cons_of_mem _ h)
    cases h : dl e with
    | ok p => simp [download_episodes, h, ih _ hir, setStatus, hne]
    | error m => simp [download_episodes, h, ih _ hir, setStatus, hne]

theorem download_db_mem (eps : List ℤ) (dl : ℤ → Except String String)
    (db : ℤ → EpisodeStatus) (i : ℤ) (hnd : eps.Nodup) (hi : i ∈ eps) :
    (download_episodes eps dl db).1 i =
      match dl i with
      | .ok _ => .downloaded
      | .error m => .failed ("download: " ++ m) := by
  induction eps generalizing db with
  | nil => cases hi
  | cons e rest ih =>
    rcases List.mem_cons.mp hi with rfl | hir
    · have hnr : i ∉ rest := (List.nodup_cons.mp hnd).1
      cases h : dl i with
      | ok p =>
        simp [download_episodes, h, download_db_not_mem rest dl _ i hnr, setStatus]
      | error m =>
        simp [download_episodes, h, download_db_not_mem rest dl _ i hnr, setStatus]
    · have hnd' := (List.nodup_cons.mp hnd).2
      cases h : dl e with
      | ok p => simp [download_episodes, h, ih _ hnd' hir]
      | error m => simp [download_episodes, h, ih _ hnd' hir]

theorem download_snd_dl (eps : List ℤ) (dl : ℤ → Except String String)
    (db : ℤ → EpisodeStatus) (i : ℤ) (p : String)
    (h : (i, p) ∈ (download_episodes eps dl db).2) : dl i = .ok p := by
  induction eps generalizing db with
  | nil => cases h
  | cons e rest ih =>
    cases hd : dl e with
    | ok q =>
      simp only [download_episodes, hd, List.mem_cons] at h
      rcases h with h | h
      · obtain ⟨rfl, rfl⟩ := Prod.mk.injEq .. ▸ h
        exact hd
      · exact ih _ h
    | error m =>
      simp only [download_episodes, hd] at h
      exact ih _ h

theorem download_mem_snd (eps : List ℤ) (dl : ℤ → Except String String)
    (db : ℤ → EpisodeStatus) (i : ℤ) (p : String) (hi : i ∈ eps)
    (hdl : dl i = .ok p) : (i, p) ∈ (download_episodes eps dl db).2 := by
  induction eps generalizing db with
  | nil => cases hi
  | cons e rest ih =>
    rcases List.mem_cons.mp hi with rfl | hir
    · simp [download_episodes, hdl]
    · cases hd : dl e with
      | ok q =>
        simp only [download_episodes, hd]
        exact List.mem_cons_of_mem _ (ih _ hir)
      | error m =>
        simp only [download_episodes, hd]
        exact ih _ hir

theorem download_fst_sublist (eps : List ℤ) (dl : ℤ → Except String String)
    (db : ℤ → EpisodeStatus) :
    ((download_episodes eps dl db).2.map Prod.fst).Sublist eps := by
  induction eps generalizing db with
  | nil => simp [download_episodes]
  | cons e rest ih =>
    cases hd : dl e with
    | ok q =>
      simp only [download_episodes, hd, List.map_cons]
      exact List.Sublist.cons₂ e (ih _)
    | error m =>
      simp only [download_episodes, hd]
      exact List.Sublist.cons e (ih _)

theorem transcribe_db_not_mem (d : List (ℤ × String))
    (tr : ℤ → Except String String) (db : ℤ → EpisodeStatus) (i : ℤ)
    (hi : i ∉ d.map Prod.fst) : (transcribe_episodes d tr db).1 i = db i := by
  induction d generalizing db with
  | nil => rfl
  | cons es rest ih =>
    obtain ⟨e, s⟩ := es
    simp only [List.map_cons, List.mem_cons, not_or] at hi
    cases h : tr e with
    | ok t => simp [transcribe_episodes, h, ih _ hi.2, setStatus, hi.1]
    | error m => simp [transcribe_episodes, h, ih _ hi.2, setStatus, hi.1]

theorem transcribe_db_mem (d : List (ℤ × String))
    (tr : ℤ → Except String String) (db : ℤ → EpisodeStatus) (i : ℤ)
    (hnd : (d.map Prod.fst).Nodup) (hi : i ∈ d.map Prod.fst) :
    (transcribe_episodes d tr db).1 i =
      match tr i with
      | .ok _ => .transcribed
      | .error m => .failed ("transcribe: " ++ m) := by
  induction d generalizing db with
  | nil => cases hi
  | cons es rest ih =>
    obtain ⟨e, s⟩ := es
    simp only [List.map_cons, List.nodup_cons] at hnd
    rcases List.mem_cons.mp hi with rfl | hir
    · cases h : tr i with
      | ok t =>
        simp [transcribe_episodes, h, transcribe_db_not_mem rest tr _ i hnd.1,
          setStatus]
      | error m =>
        simp [transcribe_episodes, h, transcribe_db_not_mem rest tr _ i hnd.1,
          setStatus]
    · cases h : tr e with
      | ok t => simp [transcribe_episodes, h, ih _ hnd.2 hir]
      | error m => simp [transcribe_episodes, h, ih _ hnd.2 hir]

theorem transcribe_mem_snd (d : List (ℤ × String))
    (tr : ℤ → Except String String) (db : ℤ → EpisodeStatus) (i : ℤ)
    (t : String) (hi : i ∈ d.map Prod.fst) (htr : tr i = .ok t) :
    (i, t) ∈ (transcribe_episodes d tr db).2 := by
  induction d generalizing db with
  | nil => cases hi
  | cons es rest ih =>
    obtain ⟨e, s⟩ := es
    rcases List.mem_cons.mp hi with rfl | hir
    · simp [transcribe_episodes, htr]
    · cases h : tr e with
      | ok u =>
        simp only [transcribe_episodes, h]
        exact List.mem_cons_of_mem _ (ih _ hir)
      | error m =>
        simp only [transcribe_episodes, h]
        exact ih _ hir

theorem transcribe_fst_sublist (d : List (ℤ × String))
    (tr : ℤ → Except String String) (db : ℤ → EpisodeStatus) :
    ((transcribe_episodes d tr db).2.map Prod.fst).Sublist (d.map Prod.fst) := by
  induction d generalizing db with
  | nil => simp [transcribe_episodes]
  | cons es rest ih =>
    obtain ⟨e, s⟩ := es
    cases h : tr e with
    | ok t =>
      simp only [transcribe_episodes, h, List.map_cons]
      exact List.Sublist.cons₂ e (ih _)
    | error m =>
      simp only [transcribe_episodes, h, List.map_cons]
      exact List.Sublist.cons e (ih _)

theorem summarizeLoop_not_mem (d : List (ℤ × String))
    (sm : ℤ → Except String Unit) (db : ℤ → EpisodeStatus) (i : ℤ)
    (hi : i ∉ d.map Prod.fst) : summarizeLoop d sm db i = db i := by
  induction d generalizing db with
  | nil => rfl
  | cons es rest ih =>
    obtain ⟨e, s⟩ := es
    simp only [List.map_cons, List.mem_cons, not_or] at hi
    cases h : sm e with
    | ok u => simp [summarizeLoop, h, ih _ hi.2, setStatus, hi.1]
    | error m => simp [summarizeLoop, h, ih _ hi.2, setStatus, hi.1]

theorem summarizeLoop_mem (d : List (ℤ × String))
    (sm : ℤ → Except String Unit) (db : ℤ → EpisodeStatus) (i : ℤ)
    (hnd : (d.map Prod.fst).Nodup) (hi : i ∈ d.map Prod.fst) :
    summarizeLoop d sm db i =
      match sm i with
      | .ok _ => .summarized
      | .error m => .failed ("summarize: " ++ m) := by
  induction d generalizing db with
  | nil => cases hi
  | cons es rest ih =>
    obtain ⟨e, s⟩ := es
    simp only [List.map_cons, List.nodup_cons] at hnd
    rcases List.mem_cons.mp hi with rfl | hir
    · cases h : sm i with
      | ok u =>
        simp [summarizeLoop, h, summarizeLoop_not_mem rest sm _ i hnd.1, setStatus]
      | error m =>
        simp [summarizeLoop, h, summarizeLoop_not_mem rest sm _ i hnd.1, setStatus]
    · cases h : sm e with
      | ok u => simp [summarizeLoop, h, ih _ hnd.2 hir]
      | error m => simp [summarizeLoop, h, ih _ hnd.2 hir]

/-- C2: in a batch run where exactly one episode's download fails, that
episode is persisted `failed ("download: <cause>")` while every other
episode still passes through Transcribe and Summarize and ends
`summarized` (given no further failures and an available API key). -/
theorem c2_batch_isolation (eps : List ℤ) (dl tr : ℤ → Except String String)
    (sm : ℤ → Except String Unit) (key : String) (db : ℤ → EpisodeStatus)
    (f : ℤ) (emsg : String)
    (hnd : eps.Nodup) (hf : f ∈ eps) (hdlf : dl f = .error emsg)
    (hok : ∀ i ∈ eps, i ≠ f → ∃ p, dl i = .ok p)
    (htr : ∀ i, ∃ t, tr i = .ok t)
    (hsm : ∀ i, sm i = .ok ()) :
    runBatch eps dl tr sm (some key) false db f
        = .failed ("download: " ++ emsg)
      ∧ ∀ i ∈ eps, i ≠ f →
          runBatch eps dl tr sm (some key) false db i = .summarized := by
  have hdb1f : (download_episodes eps dl db).1 f
      = .failed ("download: " ++ emsg) := by
    rw [download_db_mem eps dl db f hnd hf, hdlf]
  have hfnot1 : f ∉ (download_episodes eps dl db).2.map Prod.fst := by
    intro hmem
    obtain ⟨⟨j, p⟩, hjmem, hj⟩ := List.mem_map.mp hmem
    cases hj
    have := download_snd_dl eps dl db _ p hjmem
    rw [hdlf] at this
    cases this
  have hnd1 : ((download_episodes eps dl db).2.map Prod.fst).Nodup :=
    (download_fst_sublist eps dl db).nodup hnd
  have hmem1 : ∀ i ∈ eps, i ≠ f →
      i ∈ (download_episodes eps dl db).2.map Prod.fst := by
    intro i hi hif
    obtain ⟨p, hp⟩ := hok i hi hif
    exact List.mem_map_of_mem _ (download_mem_snd eps dl db i p hi hp)
  have hdb2f :
      (transcribe_episodes (download_episodes eps dl db).2 tr
          (download_episodes eps dl db).1).1 f
        = .failed ("download: " ++ emsg) := by
    rw [transcribe_db_not_mem _ tr _ f hfnot1, hdb1f]
  have hfnot2 : f ∉ (transcribe_episodes (download_episodes eps dl db).2 tr
      (download_episodes eps dl db).1).2.map Prod.fst := by
    intro hmem
    exact hfnot1 ((transcribe_fst_sublist _ tr _).subset hmem)
  have hnd2 : ((transcribe_episodes (download_episodes eps dl db).2 tr
      (download_episodes eps dl db).1).2.map Prod.fst).Nodup :=
    (transcribe_fst_sublist _ tr _).nodup hnd1
  have hmem2 : ∀ i ∈ eps, i ≠ f →
      i ∈ (transcribe_episodes (download_episodes eps dl db).2 tr
        (download_episodes eps dl db).1).2.map Prod.fst := by
    intro i hi hif
    obtain ⟨t, ht⟩ := htr i
    exact List.mem_map_of_mem _
      (transcribe_mem_snd _ tr _ i t (hmem1 i hi hif) ht)
  by_cases he1 : (download_episodes eps dl db).2.isEmpty
  · have hempty := List.isEmpty_iff.mp he1
    constructor
    · simp only [runBatch, Bool.false_or, he1, if_true]
      exact hdb1f
    · intro i hi hif
      exact absurd (hmem1 i hi hif) (by rw [hempty]; simp)
  · by_cases he2 : (transcribe_episodes (download_episodes eps dl db).2 tr
        (download_episodes eps dl db).1).2.isEmpty
    · have hempty := List.isEmpty_iff.mp he2
      constructor
      · simp only [runBatch, Bool.false_or, he1, Bool.false_eq_true,
          if_false, he2, if_true]
        exact hdb2f
      · intro i hi hif
        exact absurd (hmem2 i hi hif) (by rw [hempty]; simp)
    · constructor
      · simp only [runBatch, Bool.false_or, he1, Bool.false_eq_true,
          if_false, he2, summarize_episodes]
        rw [summarizeLoop_not_mem _ sm _ f hfnot2]
        exact hdb2f
      · intro i hi hif
        simp only [runBatch, Bool.false_or, he1, Bool.false_eq_true,
          if_false, he2, summarize_episodes]
        rw [summarizeLoop_mem _ sm _ i hnd2 (hmem2 i hi hif), hsm i]

/-- C2 witness: three episodes, episode 2's download fails. -/
theorem c2_batch_isolation_witness :
    runBatch [1, 2, 3] (fun i => if i = 2 then .error "boom" else .ok "p")
        (fun _ => .ok "t") (fun _ => .ok ()) (some "k") false (fun _ => .new) 2
      = .failed ("download: " ++ "boom")
    ∧ ∀ i ∈ [(1 : ℤ), 2, 3], i ≠ 2 →
        runBatch [1, 2, 3] (fun i => if i = 2 then .error "boom" else .ok "p")
          (fun _ => .ok "t") (fun _ => .ok ()) (some "k") false (fun _ => .new) i
        = .summarized :=
  c2_batch_isolation [1, 2, 3] _ _ _ "k" _ 2 "boom" (by decide) (by decide) rfl
    (fun i _ hif => ⟨"p", by simp [hif]⟩) (fun i => ⟨"t", rfl⟩) (fun i => rfl)

/-! Claim C6 about the download concurrency bound. -/

/-- C6: with configured limit `k`, every reachable state of the download
phase has at most `k` downloads in flight, and permits are conserved — the
in-flight downloads hold exactly the permits missing from the semaphore, one
each, from acquisition until completion. -/
theorem c6_concurrency_bound (k n : ℕ) (s : DownloadPoolState)
    (h : DownloadPoolReachable k n s) :
    s.inFlight ≤ k ∧ s.available + s.inFlight = k := by
  have key : s.available + s.inFlight = k := by
    induction h with
    | refl => rfl
    | tail hr step ih =>
      cases step with
      | spawn hq ha => simp only at ih ⊢; omega
      | finish hf => simp only at ih ⊢; omega
  exact ⟨by omega, key⟩

/-- C6 witness: limit 2, three episodes, one download spawned. -/
theorem c6_concurrency_bound_witness :
    (⟨2, 1, 1, 0⟩ : DownloadPoolState).inFlight ≤ 2
      ∧ (⟨2, 1, 1, 0⟩ : DownloadPoolState).available
          + (⟨2, 1, 1, 0⟩ : DownloadPoolState).inFlight = 2 :=
  c6_concurrency_bound 2 3 ⟨2, 1, 1, 0⟩
    (Relation.ReflTransGen.single
      (DownloadPoolStep.spawn ⟨3, 2, 0, 0⟩ (by decide) (by decide)))

/-! Helper lemmas for the chunked decoder, then claims C5 and C10. -/

theorem collectLoop_false_min (tid maxSrc : ℕ) (evs : List PacketEvent)
    (acc : List ℚ) (hfin : (collectLoop tid maxSrc evs acc).2.2 = false) :
    maxSrc ≤ (collectLoop tid maxSrc evs acc).1.length := by
  induction evs generalizing acc with
  | nil =>
    simp only [collectLoop] at hfin ⊢
    by_cases h : maxSrc ≤ acc.length
    · simpa [h]
    · simp [h] at hfin
  | cons ev rest ih =>
    simp only [collectLoop] at hfin ⊢
    by_cases h : maxSrc ≤ acc.length
    · simpa [h]
    · simp only [h, if_false] at hfin ⊢
      cases ev with
      | resetRequired => exact ih acc hfin
      | readError => simp at hfin
      | packet ptid outcome =>
        by_cases hp : ptid = tid
        · simp only [hp, ne_eq, not_true_eq_false, if_false] at hfin ⊢
          cases outcome with
          | ok samples => exact ih _ hfin
          | decodeError => exact ih acc hfin
          | fatal => simp at hfin
        · simp only [ne_eq, hp, not_false_eq_true, if_true] at hfin ⊢
          exact ih acc hfin

theorem next_chunk_of_finished (d : ChunkedAudioDecoder) (m : ℕ)
    (hd : d.finished = true) : next_chunk d m = (none, d) := by
  simp [next_chunk, hd]

theorem runCalls_of_finished (d : ChunkedAudioDecoder)
    (hd : d.finished = true) (ms : List ℕ) :
    runCalls d ms = ms.map (fun _ => none) := by
  induction ms with
  | nil => rfl
  | cons m ms ih =>
    rw [runCalls, next_chunk_of_finished d m hd]
    simpa using ih

theorem next_chunk_none_finished (d : ChunkedAudioDecoder) (m : ℕ)
    (hmax : 0 < m * d.source_rate * d.channels)
    (hnone : (next_chunk d m).1 = none) :
    (next_chunk d m).2.finished = true := by
  cases hfin : d.finished with
  | true => simp [next_chunk_of_finished d m hfin, hfin]
  | false =>
    rw [next_chunk] at hnone ⊢
    simp only [hfin, Bool.false_eq_true, if_false] at hnone ⊢
    by_cases hempty :
        (collectLoop d.track_id (m * d.source_rate * d.channels) d.events []).1.isEmpty
    · simp only [hempty, if_true]
      by_cases hflag :
          (collectLoop d.track_id (m * d.source_rate * d.channels) d.events []).2.2
      · exact hflag
      · exfalso
        have hlen := collectLoop_false_min d.track_id
          (m * d.source_rate * d.channels) d.events []
          (Bool.eq_false_iff.mpr hflag)
        rw [List.isEmpty_iff] at hempty
        have hzero : m * d.source_rate * d.channels = 0 :=
          Nat.le_zero.mp (by simpa [hempty] using hlen)
        rw [hzero] at hmax
        exact Nat.lt_irrefl 0 hmax
    · exfalso
      simp only [hempty, if_false] at hnone
      by_cases hsr : d.source_rate ≠ WHISPER_SAMPLE_RATE <;> simp [hsr] at hnone

/-- C5 counterexample: a `next_chunk` call with `max_seconds = 0` returns no
chunk without exhausting the decoder, and a later call with
`max_seconds = 1` still yields a chunk. -/
theorem c5_counterexample :
    (next_chunk ⟨[.packet 0 (.ok [1])], 0, 16000, 1, false⟩ 0).1 = none
      ∧ runCalls (next_chunk ⟨[.packet 0 (.ok [1])], 0, 16000, 1, false⟩ 0).2 [1]
        = [some [1]] := by
  constructor <;> rfl

/-- C5 (amended): once a `next_chunk` call with a positive raw-sample budget
(`max_seconds * source_rate * channels > 0`) returns no chunk, the decoder's
`finished` flag is set and every subsequent call — with any `max_seconds` —
returns no chunk; only a zero-budget call (e.g. `max_seconds = 0`) returns
no chunk without exhausting the decoder. -/
theorem c5_exhausted_stays_exhausted (d : ChunkedAudioDecoder) (m : ℕ)
    (ms : List ℕ) (hmax : 0 < m * d.source_rate * d.channels)
    (hnone : (next_chunk d m).1 = none) :
    runCalls (next_chunk d m).2 ms = ms.map (fun _ => none) :=
  runCalls_of_finished _ (next_chunk_none_finished d m hmax hnone) ms

/-- C5 witness: a decoder over an exhausted stream. -/
theorem c5_exhausted_stays_exhausted_witness :
    runCalls (next_chunk ⟨[], 0, 16000, 1, false⟩ 1).2 [5, 0, 3]
      = [none, none, none] :=
  c5_exhausted_stays_exhausted ⟨[], 0, 16000, 1, false⟩ 1 [5, 0, 3]
    (by decide) rfl

/-- C10: when the selected track's codec parameters report no sample rate
and no channel layout, `open` succeeds with the defaults 44100 Hz and one
channel rather than failing. -/
theorem c10_open_defaults (tracks : List Track) (events : List PacketEvent)
    (t : Track) (hfind : tracks.find? (fun tr => !tr.codec_params.isNull) = some t)
    (hsr : t.codec_params.sample_rate = none)
    (hch : t.codec_params.channelCount = none) :
    ChunkedAudioDecoder.openDecoder tracks events
      = .ok ⟨events, t.id, 44100, 1, false⟩ := by
  simp [ChunkedAudioDecoder.openDecoder, hfind, hsr, hch]

/-- C10 witness: one non-null track reporting neither sample rate nor
channel layout. -/
theorem c10_open_defaults_witness :
    ChunkedAudioDecoder.openDecoder [⟨7, ⟨false, none, none⟩⟩] []
      = .ok ⟨[], 7, 44100, 1, false⟩ :=
  c10_open_defaults [⟨7, ⟨false, none, none⟩⟩] [] ⟨7, ⟨false, none, none⟩⟩
    rfl rfl rfl

/-! Claim C8 about the progress cell initialization. -/

/-- C8 counterexample: the cell starts at 0, which lies inside the valid
progress range 0–100 — there is no sentinel distinct from every valid
value. -/
theorem c8_counterexample : progressInit = 0 ∧ validProgress progressInit :=
  ⟨rfl, by constructor <;> decide⟩

/-- C8 (amended): the shared progress cell is initialized to 0 — the lowest
valid progress value, not a distinct "not started" sentinel — before the
blocking transcription work writes 0–100 into it; the poller renders
`max pct 0`, which shows 0 for the initial value. -/
theorem c8_progress_init_zero :
    progressInit = 0 ∧ validProgress progressInit
      ∧ pollDisplay progressInit = 0 :=
  ⟨rfl, ⟨by decide, by decide⟩, rfl⟩

end PodcastSummary
